import Mathlib

/-!
Verification development for the Article-to-Chunk converter
(`export_rag_jsonl.py`).

Strings are embedded as `List Char`.  Python slices `text[a:b]` (with
`0 ≤ a`, `0 ≤ b`) become `pySlice`, and `str.strip()` becomes `pyStrip`
(Lean's `Char.isWhitespace` covers the ASCII whitespace characters that
occur in this corpus; Python's notion additionally covers a few rare
Unicode space characters).

The chunking loop of `simple_chunk_text` does not terminate for every
parameter combination (when `overlap >= max_chars` the window start
`start = max(0, end - overlap)` does not advance), so the loop is
embedded with explicit fuel and an `Option` result: `none` models a
run that does not finish within `length + 1` iterations, and for the
parameter ranges where the Python loop terminates the fuel is proved
sufficient (`chunkLoop_terminates`), while for the non-advancing
configurations the loop is proved to return `none` for *every* fuel
(`chunkLoop_stuck`), i.e. the Python loop really diverges there.
-/

set_option maxRecDepth 100000

/-- Python slice `l[a:b]` for natural indices: drop `a` then keep `b - a`. -/
def pySlice (l : List Char) (a b : Nat) : List Char :=
  (l.drop a).take (b - a)

/-- Strip characters satisfying `p` from both ends of a list. -/
def stripEnds (p : Char → Bool) (l : List Char) : List Char :=
  ((l.dropWhile p).reverse.dropWhile p).reverse

/-- Python `str.strip()` (no arguments): strip whitespace from both ends. -/
def pyStrip (l : List Char) : List Char :=
  stripEnds Char.isWhitespace l

/-- Python `str.strip("_")`: strip underscores from both ends
(used for the composite record id). -/
def stripUnderscore (l : List Char) : List Char :=
  stripEnds (fun c => c = '_') l

/-- The `while start < length` loop of `simple_chunk_text`
(`export_rag_jsonl.py` lines 90-95), in chunk-consing form:

```
while start < length:
    end = min(start + max_chars, length)
    chunks.append(text[start:end])
    if end == length: break
    start = max(0, end - overlap)
```

`m` is `max_chars` (already known positive at this point, hence a `Nat`);
`ov` is `overlap` (an arbitrary Python int).  `max(0, end - overlap)`
is `((end : Int) - ov).toNat`.  The first argument is fuel; `none`
means the fuel ran out, which (with the fuel used below) only happens
when the Python loop diverges. -/
def chunkLoop (t : List Char) (m : Nat) (ov : Int) : Nat → Nat → Option (List (List Char))
  | 0, _ => none
  | fuel + 1, start =>
    if start < t.length then
      if min (start + m) t.length = t.length then
        some [pySlice t start (min (start + m) t.length)]
      else
        match chunkLoop t m ov fuel (((min (start + m) t.length : Nat) : Int) - ov).toNat with
        | none => none
        | some rest => some (pySlice t start (min (start + m) t.length) :: rest)
    else some []

/-- `simple_chunk_text(text, max_chars, overlap)`
(`export_rag_jsonl.py` lines 80-96): strip the text, return `[]` if the
result is empty, return the (stripped) text as a single chunk when
`max_chars <= 0`, otherwise run the chunking loop from position 0. -/
def simple_chunk_text (text : List Char) (max_chars overlap : Int) : Option (List (List Char)) :=
  if pyStrip text = [] then some []
  else if max_chars ≤ 0 then some [pyStrip text]
  else chunkLoop (pyStrip text) max_chars.toNat overlap ((pyStrip text).length + 1) 0

/-- The literal prefix `f"標題: {title} | "` of `chunk_with_title_prefix`
(called `title_prefix` in the source). -/
def titleHeader (title : List Char) : List Char :=
  ("標題: ").toList ++ title ++ (" | ").toList

/-- `chunk_with_title_prefix(text, title, max_chars, overlap)`
(`export_rag_jsonl.py` lines 98-120).  The source first chunks without
the prefix (this call runs even when its result is discarded, so its
possible divergence is propagated), returns those chunks unchanged if
the title is empty, and otherwise re-chunks with
`max_chars - len(title_prefix)` and prepends the prefix to every chunk. -/
def chunk_with_title_prefix (text title : List Char) (max_chars overlap : Int) : Option (List (List Char)) :=
  match simple_chunk_text text max_chars overlap with
  | none => none
  | some chunks =>
    if title = [] then some chunks
    else
      match simple_chunk_text text (max_chars - ((titleHeader title).length : Int)) overlap with
      | none => none
      | some adjusted_chunks => some (adjusted_chunks.map (fun c => titleHeader title ++ c))

/-- Reconstruction of a chunk list minus the overlap, for every chunk:
drop the first `o` characters of each chunk and concatenate. -/
def reconTail (o : Nat) (cs : List (List Char)) : List Char :=
  (cs.map (fun c => c.drop o)).flatten

/-- Reconstruction of a chunk list: the first chunk in full, then every
later chunk with its first `o` (overlap) characters removed. -/
def dropOverlapJoin (o : Nat) : List (List Char) → List Char
  | [] => []
  | c :: rest => c ++ reconTail o rest

/-!
SHA-256 (`hashlib.sha256` over the UTF-8 encoding of the content,
`sha256_hexdigest` in the source, lines 123-124).  Implemented from the
FIPS 180-4 algorithm over `Nat` with explicit `% 2^32`; the hex digest is
lower-case, as in Python.  `encode("utf-8", errors="ignore")` never takes
the `ignore` branch here because every Lean `Char` is a valid Unicode
scalar value.
-/

/-- UTF-8 encoding of a character sequence as a byte list. -/
def utf8Bytes (s : List Char) : List Nat :=
  s.flatMap (fun c =>
    let n := c.toNat
    if n < 0x80 then [n]
    else if n < 0x800 then [0xC0 ||| (n >>> 6), 0x80 ||| (n &&& 0x3F)]
    else if n < 0x10000 then
      [0xE0 ||| (n >>> 12), 0x80 ||| ((n >>> 6) &&& 0x3F), 0x80 ||| (n &&& 0x3F)]
    else
      [0xF0 ||| (n >>> 18), 0x80 ||| ((n >>> 12) &&& 0x3F), 0x80 ||| ((n >>> 6) &&& 0x3F),
        0x80 ||| (n &&& 0x3F)])

def M32 : Nat := 4294967296

def rotr (k w : Nat) : Nat := ((w >>> k) ||| (w <<< (32 - k))) % M32

def bsig0 (w : Nat) : Nat := rotr 2 w ^^^ rotr 13 w ^^^ rotr 22 w

def bsig1 (w : Nat) : Nat := rotr 6 w ^^^ rotr 11 w ^^^ rotr 25 w

def ssig0 (w : Nat) : Nat := rotr 7 w ^^^ rotr 18 w ^^^ (w >>> 3)

def ssig1 (w : Nat) : Nat := rotr 17 w ^^^ rotr 19 w ^^^ (w >>> 10)

/-- The SHA-256 round constants. -/
def shaK : List Nat :=
  [1116352408, 1899447441, 3049323471, 3921009573, 961987163, 1508970993,
   2453635748, 2870763221, 3624381080, 310598401, 607225278, 1426881987,
   1925078388, 2162078206, 2614888103, 3248222580, 3835390401, 4022224774,
   264347078, 604807628, 770255983, 1249150122, 1555081692, 1996064986,
   2554220882, 2821834349, 2952996808, 3210313671, 3336571891, 3584528711,
   113926993, 338241895, 666307205, 773529912, 1294757372, 1396182291,
   1695183700, 1986661051, 2177026350, 2456956037, 2730485921, 2820302411,
   3259730800, 3345764771, 3516065817, 3600352804, 4094571909, 275423344,
   430227734, 506948616, 659060556, 883997877, 958139571, 1322822218,
   1537002063, 1747873779, 1955562222, 2024104815, 2227730452, 2361852424,
   2428436474, 2756734187, 3204031479, 3329325298]

/-- The eight 32-bit working variables of SHA-256. -/
structure Sha8 where
  a : Nat
  b : Nat
  c : Nat
  d : Nat
  e : Nat
  f : Nat
  g : Nat
  h : Nat
deriving DecidableEq

def shaH0 : Sha8 :=
  ⟨1779033703, 3144134277, 1013904242, 2773480762,
    1359893119, 2600822924, 528734635, 1541459225⟩

/-- `k`-byte big-endian encoding of `n`. -/
def beBytes : Nat → Nat → List Nat
  | 0, _ => []
  | k + 1, n => beBytes k (n / 256) ++ [n % 256]

/-- SHA-256 padding: `0x80`, zeros to 56 mod 64, then the bit length. -/
def padBytes (msg : List Nat) : List Nat :=
  msg ++ 0x80 :: List.replicate ((119 - msg.length % 64) % 64) 0 ++ beBytes 8 (8 * msg.length)

def bytesToWords : Nat → List Nat → List Nat
  | 0, _ => []
  | _ + 1, [] => []
  | fuel + 1, bs => (bs.take 4).foldl (fun acc b => acc * 256 + b) 0 :: bytesToWords fuel (bs.drop 4)

def wordsToBlocks : Nat → List Nat → List (List Nat)
  | 0, _ => []
  | _ + 1, [] => []
  | fuel + 1, ws => ws.take 16 :: wordsToBlocks fuel (ws.drop 16)

/-- Message-schedule extension: append `k` further words. -/
def extendW : Nat → List Nat → List Nat
  | 0, ws => ws
  | k + 1, ws =>
    extendW k (ws ++ [(ws.getD (ws.length - 16) 0 + ssig0 (ws.getD (ws.length - 15) 0)
      + ws.getD (ws.length - 7) 0 + ssig1 (ws.getD (ws.length - 2) 0)) % M32])

def roundStep (w : List Nat) (st : Sha8) (i : Nat) : Sha8 :=
  let t1 := (st.h + bsig1 st.e + ((st.e &&& st.f) ^^^ ((st.e ^^^ 0xFFFFFFFF) &&& st.g))
    + shaK.getD i 0 + w.getD i 0) % M32
  let t2 := (bsig0 st.a + ((st.a &&& st.b) ^^^ (st.a &&& st.c) ^^^ (st.b &&& st.c))) % M32
  ⟨(t1 + t2) % M32, st.a, st.b, st.c, (st.d + t1) % M32, st.e, st.f, st.g⟩

def compress (st : Sha8) (block : List Nat) : Sha8 :=
  let w := extendW 48 block
  let fin := (List.range 64).foldl (roundStep w) st
  ⟨(st.a + fin.a) % M32, (st.b + fin.b) % M32, (st.c + fin.c) % M32, (st.d + fin.d) % M32,
    (st.e + fin.e) % M32, (st.f + fin.f) % M32, (st.g + fin.g) % M32, (st.h + fin.h) % M32⟩

def hexChar (n : Nat) : Char := if n < 10 then Char.ofNat (48 + n) else Char.ofNat (87 + n)

def wordHex (w : Nat) : List Char :=
  (List.range 8).map (fun i => hexChar ((w >>> (28 - 4 * i)) &&& 15))

/-- `sha256_hexdigest(content)` (`export_rag_jsonl.py` lines 123-124):
lower-case hex digest of the SHA-256 of the UTF-8 bytes of `content`. -/
def sha256_hexdigest (content : List Char) : List Char :=
  let bytes := padBytes (utf8Bytes content)
  let words := bytesToWords bytes.length bytes
  let blocks := wordsToBlocks words.length words
  let fin := blocks.foldl compress shaH0
  wordHex fin.a ++ wordHex fin.b ++ wordHex fin.c ++ wordHex fin.d
    ++ wordHex fin.e ++ wordHex fin.f ++ wordHex fin.g ++ wordHex fin.h

/-!
Data model.  A Python article is a dict with optional fields; optional
string-valued keys are modelled as `Option (List Char)` (with `none` for
both a missing key and a `None` value).  `dict.get(k, d)` is `Option.getD`.
-/

/-- One reply message: only the `"push_content"` key is read. -/
structure Message where
  push_content : Option (List Char) := none
deriving DecidableEq

/-- One article mapping.  `oid` stands for the Python key `"_id"`. -/
structure Article where
  id : Option (List Char) := none
  aid : Option (List Char) := none
  article_id : Option (List Char) := none
  oid : Option (List Char) := none
  url : Option (List Char) := none
  board : Option (List Char) := none
  board_name : Option (List Char) := none
  author : Option (List Char) := none
  date : Option (List Char) := none
  created_at : Option (List Char) := none
  time : Option (List Char) := none
  article_title : Option (List Char) := none
  content : Option (List Char) := none
  messages : Option (List Message) := none
  has_media : Option Bool := none
deriving DecidableEq

/-- A Python `or`-chain `a.get(k1) or a.get(k2) or ... or ""`: the first
present, non-empty (truthy) string, else the empty string. -/
def firstTruthyD : List (Option (List Char)) → List Char
  | [] => []
  | none :: rest => firstTruthyD rest
  | some s :: rest => if s = [] then firstTruthyD rest else s

/-- A Python `or`-chain used as an argument: the first present, non-empty
string, else `none` (all-falsy; `normalize_datetime` maps every falsy
value to the empty string, so collapsing them to `none` is faithful). -/
def firstTruthyOpt : List (Option (List Char)) → Option (List Char)
  | [] => none
  | none :: rest => firstTruthyOpt rest
  | some s :: rest => if s = [] then firstTruthyOpt rest else some s

/-- `extract_push_content(messages)` (`export_rag_jsonl.py` lines 10-21):
one line `"推文: <text>"` per message with non-empty `push_content`,
joined by newlines; empty input yields the empty string. -/
def extract_push_content (messages : List Message) : List Char :=
  if messages = [] then []
  else
    List.intercalate [Char.ofNat 10]
      (messages.foldr
        (fun msg acc =>
          let pc := msg.push_content.getD []
          if pc = [] then acc else (("推文: ").toList ++ pc) :: acc)
        [])

/-- `clean_article_with_comments(article)` (`export_rag_jsonl.py` lines
24-42): body text and reply block joined with `" | "`, skipping empty
parts.  (The source's `isinstance(article, dict)` test is always true in
this typed model, so the `str(article)` branch is unreachable.) -/
def clean_article_with_comments (article : Article) : List Char :=
  let content := article.content.getD []
  let push_content := extract_push_content (article.messages.getD [])
  let parts := (if content = [] then [] else [content])
    ++ (if push_content = [] then [] else [push_content])
  if parts = [] then [] else List.intercalate (" | ").toList parts

/-- One output record (`record` of `to_jsonl_records`): the `content`
field plus the flattened `metadata` object of lines 189-213. -/
structure Record where
  content : List Char
  id : List Char
  source : List Char
  url : List Char
  board : List Char
  title : List Char
  author : List Char
  created_at : List Char
  tags : List (List Char)
  chunk_index : Nat
  total_chunks : Nat
  has_media : Bool
  dedupe_key : List Char
deriving DecidableEq

/-- The composite id `f"{source}_{board}_{article_id}_{idx}".strip("_")`. -/
def recordId (source board article_id : List Char) (idx : Nat) : List Char :=
  stripUnderscore (source ++ '_' :: board ++ '_' :: article_id ++ '_' :: Nat.toDigits 10 idx)

/-- The `for idx, chunk in enumerate(content_chunks)` loop of
`to_jsonl_records` (lines 187-214): one record per chunk, with the shared
per-article metadata and the per-chunk index. -/
def buildRecords (source board article_id url title author created_at : List Char)
    (tags : List (List Char)) (total_chunks : Nat) (has_media : Bool) (dedupe_key : List Char) :
    Nat → List (List Char) → List Record
  | _, [] => []
  | idx, chunk :: rest =>
    { content := chunk
      id := recordId source board article_id idx
      source := source
      url := url
      board := board
      title := title
      author := author
      created_at := created_at
      tags := tags
      chunk_index := idx
      total_chunks := total_chunks
      has_media := has_media
      dedupe_key := dedupe_key } ::
      buildRecords source board article_id url title author created_at tags total_chunks
        has_media dedupe_key (idx + 1) rest

/-- The literal prefix of every dedupe key:
`dedupe_key = f"sha256:{sha256_hexdigest(content)}"` (line 177). -/
def sha256Tag : List Char := ("sha256:").toList

/-!
`normalize_datetime` (`export_rag_jsonl.py` lines 45-69).  The embedding
covers the `None`/`str` fragment of the dynamically-typed input (the
claims only concern that fragment); the numeric branch
(`datetime.fromtimestamp`) depends on the host clock zone and is outside
the embedding.  Each `datetime.strptime(s, fmt)` for the five fixed
formats is implemented after CPython's `_strptime`: the format is turned
into an anchored regex where `%Y` is `\d\d\d\d` (exactly four digits),
`%m` is `1[0-2]|0[1-9]|[1-9]`, `%d` is
`3[0-1]|[1-2]\d|0[1-9]|[1-9]| [1-9]` (note the space-padded-day
alternative), `%H` is `2[0-3]|[0-1]\d|\d`, `%M` is `[0-5]\d|\d`, `%S` is
`6[0-1]|[0-5]\d|\d`, `%a`/`%b` are the (C-locale) English abbreviated
names matched case-insensitively, and a space in the format matches one
or more whitespace characters (`\s+`).  For `str` patterns, `\d` matches
every Unicode decimal digit (category Nd, `digitVal`) and `\s` every
Unicode whitespace character (`isPySpace`), while the explicit classes
such as `[1-9]` match ASCII only (`asciiDigit`); `int()` on the captured
text reads each Unicode digit at its decimal value and ignores a leading
space.  Alternation backtracking is modelled by trying the candidate
matches of each numeric field in regex order (`tryCands`).  A successful regex match is then validated exactly as the
`datetime` constructor does (year 1-9999, day within the month with leap
years, seconds at most 59 even though the regex admits 60/61); a
validation failure falls through to the next format, as the `except`
around `strptime` does.  The result is `datetime.isoformat()`:
`YYYY-MM-DDTHH:MM:SS`.
-/

/-- The starts of the aligned runs of ten consecutive Unicode decimal
digits (category Nd); regex `\d` on `str` matches exactly these
characters, and each digit's decimal value is its offset in its run. -/
def ndRunStarts : List Nat :=
  [48, 1632, 1776, 1984, 2406, 2534, 2662, 2790,
   2918, 3046, 3174, 3302, 3430, 3558, 3664, 3792,
   3872, 4160, 4240, 6112, 6160, 6470, 6608, 6784,
   6800, 6992, 7088, 7232, 7248, 42528, 43216, 43264,
   43472, 43504, 43600, 44016, 65296, 66720, 68912, 69734,
   69872, 69942, 70096, 70384, 70736, 70864, 71248, 71360,
   71472, 71904, 72016, 72784, 73040, 73120, 92768, 92864,
   93008, 120782, 120792, 120802, 120812, 120822, 123200, 123632,
   125264, 130032]

def ndLookup : Nat → List Nat → Option Nat
  | _, [] => none
  | n, s :: rest => if s ≤ n ∧ n < s + 10 then some (n - s) else ndLookup n rest

/-- Regex `\d` on a `str` pattern: any Unicode decimal digit, read by
`int()` at its decimal value. -/
def digitVal (c : Char) : Option Nat :=
  ndLookup c.toNat ndRunStarts

/-- An explicit ASCII class such as `[0-9]`/`[1-9]` in the field regexes
(unlike `\d`, these never match non-ASCII digits). -/
def asciiDigit (c : Char) : Option Nat :=
  if '0' ≤ c ∧ c ≤ '9' then some (c.toNat - 48) else none

/-- The characters matched by regex `\s` on a `str` pattern. -/
def pySpaceCodes : List Nat :=
  [9, 10, 11, 12, 13, 28, 29, 30, 31, 32, 133, 160, 5760,
   8192, 8193, 8194, 8195, 8196, 8197, 8198, 8199, 8200, 8201, 8202,
   8232, 8233, 8239, 8287, 12288]

def isPySpace (c : Char) : Bool := pySpaceCodes.contains c.toNat

/-- `%Y`: exactly four digits. -/
def parse4Y : List Char → Option (Nat × List Char)
  | a :: b :: c :: d :: rest =>
    match digitVal a, digitVal b, digitVal c, digitVal d with
    | some x, some y, some z, some w => some ((((x * 10 + y) * 10 + z) * 10 + w), rest)
    | _, _, _, _ => none
  | _ => none

/-- Candidate matches of `%m = 1[0-2]|0[1-9]|[1-9]` (all classes ASCII),
in regex order. -/
def candsM (s : List Char) : List (Nat × List Char) :=
  (match s with
   | a :: b :: r =>
     match asciiDigit a, asciiDigit b with
     | some x, some y =>
       (if x = 1 ∧ y ≤ 2 then [(10 + y, r)] else [])
         ++ (if x = 0 ∧ 1 ≤ y then [(y, r)] else [])
     | _, _ => []
   | _ => [])
  ++ (match s with
      | a :: r =>
        match asciiDigit a with
        | some x => if 1 ≤ x then [(x, r)] else []
        | none => []
      | _ => [])

/-- Candidate matches of `%d = 3[0-1]|[1-2]\d|0[1-9]|[1-9]| [1-9]`, in
regex order; only the `\d` of the second alternative accepts non-ASCII
digits, and the last alternative is the space-padded day (whose capture
`int()` parses by ignoring the leading space). -/
def candsD (s : List Char) : List (Nat × List Char) :=
  (match s with
   | a :: b :: r =>
     (match asciiDigit a, asciiDigit b with
      | some x, some y => if x = 3 ∧ y ≤ 1 then [(30 + y, r)] else []
      | _, _ => [])
     ++ (match asciiDigit a, digitVal b with
         | some x, some y => if x = 1 ∨ x = 2 then [(10 * x + y, r)] else []
         | _, _ => [])
     ++ (match asciiDigit a, asciiDigit b with
         | some x, some y => if x = 0 ∧ 1 ≤ y then [(y, r)] else []
         | _, _ => [])
   | _ => [])
  ++ (match s with
      | a :: r =>
        match asciiDigit a with
        | some x => if 1 ≤ x then [(x, r)] else []
        | none => []
      | _ => [])
  ++ (match s with
      | a :: b :: r =>
        match asciiDigit b with
        | some y => if a = ' ' ∧ 1 ≤ y then [(y, r)] else []
        | none => []
      | _ => [])

/-- Candidate matches of `%H = 2[0-3]|[0-1]\d|\d`, in regex order. -/
def candsH (s : List Char) : List (Nat × List Char) :=
  (match s with
   | a :: b :: r =>
     (match asciiDigit a, asciiDigit b with
      | some x, some y => if x = 2 ∧ y ≤ 3 then [(20 + y, r)] else []
      | _, _ => [])
     ++ (match asciiDigit a, digitVal b with
         | some x, some y => if x ≤ 1 then [(10 * x + y, r)] else []
         | _, _ => [])
   | _ => [])
  ++ (match s with
      | a :: r =>
        match digitVal a with
        | some x => [(x, r)]
        | none => []
      | _ => [])

/-- Candidate matches of `%M = [0-5]\d|\d`, in regex order. -/
def candsMin (s : List Char) : List (Nat × List Char) :=
  (match s with
   | a :: b :: r =>
     match asciiDigit a, digitVal b with
     | some x, some y => if x ≤ 5 then [(10 * x + y, r)] else []
     | _, _ => []
   | _ => [])
  ++ (match s with
      | a :: r =>
        match digitVal a with
        | some x => [(x, r)]
        | none => []
      | _ => [])

/-- Candidate matches of `%S = 6[0-1]|[0-5]\d|\d`, in regex order. -/
def candsSec (s : List Char) : List (Nat × List Char) :=
  (match s with
   | a :: b :: r =>
     (match asciiDigit a, asciiDigit b with
      | some x, some y => if x = 6 ∧ y ≤ 1 then [(60 + y, r)] else []
      | _, _ => [])
     ++ (match asciiDigit a, digitVal b with
         | some x, some y => if x ≤ 5 then [(10 * x + y, r)] else []
         | _, _ => [])
   | _ => [])
  ++ (match s with
      | a :: r =>
        match digitVal a with
        | some x => [(x, r)]
        | none => []
      | _ => [])

def firstSome {α : Type} : List (Option α) → Option α
  | [] => none
  | none :: rest => firstSome rest
  | some a :: _ => some a

/-- Regex alternation with backtracking: run the continuation on each
candidate in order, keeping the first success. -/
def tryCands {α : Type} (cands : List (Nat × List Char)) (k : Nat → List Char → Option α) :
    Option α :=
  firstSome (cands.map (fun p => k p.1 p.2))

/-- A whitespace run in the format (`\s+`): one or more regex-whitespace
characters, consumed greedily (the tokens that follow in the five
formats never match whitespace at a position where giving characters
back would change the outcome, so greedy consumption is faithful). -/
def wsPlus : List Char → Option (List Char)
  | [] => none
  | c :: r => if isPySpace c then some (r.dropWhile isPySpace) else none

/-- A literal character in the format. -/
def lit (c : Char) : List Char → Option (List Char)
  | [] => none
  | x :: r => if x = c then some r else none

/-- Case-insensitive literal name match (for `%a`/`%b` under
`re.IGNORECASE`), with ASCII case folding.  The `re.IGNORECASE` regex
additionally admits the non-ASCII folds `İ` U+0130 / `ı` U+0131 for `i`
and `ſ` U+017F for `s`, but `_strptime` then looks the matched text up
with `.lower().index(...)`, where those spellings are not in the name
list, so the whole format attempt raises and fails exactly as a
non-match does; ASCII-only folding is therefore faithful to the
observable behaviour of `normalize_datetime`. -/
def stripNameCI (name : List Char) (s : List Char) : Option (List Char) :=
  if (s.take name.length).map Char.toLower = name then some (s.drop name.length) else none

/-- C-locale abbreviated weekday names (`%a`); the matched value is not
used by `datetime.strptime`. -/
def wdNames : List (List Char) :=
  [("mon").toList, ("tue").toList, ("wed").toList, ("thu").toList, ("fri").toList,
    ("sat").toList, ("sun").toList]

/-- C-locale abbreviated month names (`%b`), in month order. -/
def monNames : List (List Char) :=
  [("jan").toList, ("feb").toList, ("mar").toList, ("apr").toList, ("may").toList,
    ("jun").toList, ("jul").toList, ("aug").toList, ("sep").toList, ("oct").toList,
    ("nov").toList, ("dec").toList]

def parseWd (s : List Char) : Option (List Char) :=
  firstSome (wdNames.map (fun n => stripNameCI n s))

def parseMonAux : Nat → List (List Char) → List Char → Option (Nat × List Char)
  | _, [], _ => none
  | i, n :: rest, s =>
    match stripNameCI n s with
    | some r => some (i + 1, r)
    | none => parseMonAux (i + 1) rest s

def parseMon (s : List Char) : Option (Nat × List Char) :=
  parseMonAux 0 monNames s

/-- `strptime` against `"%Y<sep>%m<sep>%d %H:%M"`, anchored at both ends. -/
def parseYmdHM (sep : Char) (s : List Char) : Option (Nat × Nat × Nat × Nat × Nat) :=
  match parse4Y s with
  | none => none
  | some (y, r1) =>
    match lit sep r1 with
    | none => none
    | some r2 =>
      tryCands (candsM r2) (fun mo r3 =>
        match lit sep r3 with
        | none => none
        | some r4 =>
          tryCands (candsD r4) (fun d r5 =>
            match wsPlus r5 with
            | none => none
            | some r6 =>
              tryCands (candsH r6) (fun h r7 =>
                match lit ':' r7 with
                | none => none
                | some r8 =>
                  tryCands (candsMin r8) (fun mi r9 =>
                    if r9 = [] then some (y, mo, d, h, mi) else none))))

/-- `strptime` against `"%Y<sep>%m<sep>%d"`, anchored at both ends. -/
def parseYmd (sep : Char) (s : List Char) : Option (Nat × Nat × Nat) :=
  match parse4Y s with
  | none => none
  | some (y, r1) =>
    match lit sep r1 with
    | none => none
    | some r2 =>
      tryCands (candsM r2) (fun mo r3 =>
        match lit sep r3 with
        | none => none
        | some r4 =>
          tryCands (candsD r4) (fun d r5 =>
            if r5 = [] then some (y, mo, d) else none))

/-- `strptime` against `"%a %b %d %H:%M:%S %Y"` (ctime style), anchored. -/
def parseCtime (s : List Char) : Option (Nat × Nat × Nat × Nat × Nat × Nat) :=
  match parseWd s with
  | none => none
  | some r1 =>
    match wsPlus r1 with
    | none => none
    | some r2 =>
      match parseMon r2 with
      | none => none
      | some (mo, r3) =>
        match wsPlus r3 with
        | none => none
        | some r4 =>
          tryCands (candsD r4) (fun d r5 =>
            match wsPlus r5 with
            | none => none
            | some r6 =>
              tryCands (candsH r6) (fun h r7 =>
                match lit ':' r7 with
                | none => none
                | some r8 =>
                  tryCands (candsMin r8) (fun mi r9 =>
                    match lit ':' r9 with
                    | none => none
                    | some r10 =>
                      tryCands (candsSec r10) (fun sec r11 =>
                        match wsPlus r11 with
                        | none => none
                        | some r12 =>
                          match parse4Y r12 with
                          | none => none
                          | some (y, r13) =>
                            if r13 = [] then some (y, mo, d, h, mi, sec) else none))))

def isLeapYear (y : Nat) : Bool := y % 4 = 0 ∧ (y % 100 ≠ 0 ∨ y % 400 = 0)

def daysInMonth (y mo : Nat) : Nat :=
  if mo = 2 then (if isLeapYear y then 29 else 28)
  else if mo = 4 ∨ mo = 6 ∨ mo = 9 ∨ mo = 11 then 30
  else 31

def pad2 (n : Nat) : List Char :=
  if n < 10 then '0' :: Nat.toDigits 10 n else Nat.toDigits 10 n

def pad4 (n : Nat) : List Char :=
  List.replicate (4 - (Nat.toDigits 10 n).length) '0' ++ Nat.toDigits 10 n

/-- The `datetime(...)` constructor's range validation followed by
`isoformat()`. -/
def toIso (y mo d h mi sec : Nat) : Option (List Char) :=
  if 1 ≤ y ∧ y ≤ 9999 ∧ 1 ≤ mo ∧ mo ≤ 12 ∧ 1 ≤ d ∧ d ≤ daysInMonth y mo
      ∧ h ≤ 23 ∧ mi ≤ 59 ∧ sec ≤ 59 then
    some (pad4 y ++ '-' :: pad2 mo ++ '-' :: pad2 d ++ 'T' :: pad2 h
      ++ ':' :: pad2 mi ++ ':' :: pad2 sec)
  else none

/-- Format 1: `"%Y/%m/%d %H:%M"`. -/
def fmtSlashHM (s : List Char) : Option (List Char) :=
  match parseYmdHM '/' s with
  | some (y, mo, d, h, mi) => toIso y mo d h mi 0
  | none => none

/-- Format 2: `"%Y-%m-%d %H:%M"`. -/
def fmtDashHM (s : List Char) : Option (List Char) :=
  match parseYmdHM '-' s with
  | some (y, mo, d, h, mi) => toIso y mo d h mi 0
  | none => none

/-- Format 3: `"%Y/%m/%d"`. -/
def fmtSlash (s : List Char) : Option (List Char) :=
  match parseYmd '/' s with
  | some (y, mo, d) => toIso y mo d 0 0 0
  | none => none

/-- Format 4: `"%Y-%m-%d"`. -/
def fmtDash (s : List Char) : Option (List Char) :=
  match parseYmd '-' s with
  | some (y, mo, d) => toIso y mo d 0 0 0
  | none => none

/-- Format 5: `"%a %b %d %H:%M:%S %Y"`. -/
def fmtCtime (s : List Char) : Option (List Char) :=
  match parseCtime s with
  | some (y, mo, d, h, mi, sec) => toIso y mo d h mi sec
  | none => none

/-- The `for fmt in candidates` loop: first format that both parses and
constructs a valid datetime wins. -/
def tryFormats (s : List Char) : Option (List Char) :=
  firstSome [fmtSlashHM s, fmtDashHM s, fmtSlash s, fmtDash s, fmtCtime s]

/-- `normalize_datetime(dt_value)` (lines 45-69) on the `None`/`str`
fragment: falsy input yields the empty string; a non-empty string is
tried against the five formats in order, and on no match it is returned
unchanged. -/
def normalize_datetime : Option (List Char) → List Char
  | none => []
  | some s =>
    if s = [] then []
    else
      match tryFormats s with
      | some iso => iso
      | none => s

/-!
`extract_title_tags` (`export_rag_jsonl.py` lines 72-77):
`re.findall(r"\[(.+?)\]", title)` followed by
`[t.strip() for t in tags if t.strip()]`.  `findall` scans left to
right; at a `[` the non-greedy `.+?` matches the shortest non-empty run
of non-newline characters up to a `]` (the run may itself contain `]`
as its first characters only when the closing `]` comes later, which the
shortest-run rule captures); after a match the scan resumes after the
closing bracket, and after a failed attempt it resumes one character
further on.
-/

/-- Search for the closing `]`: returns the captured characters before it
and the rest after it; fails on a newline (`.` does not match `\n`) or
if no `]` follows. -/
def closeSearch : List Char → Option (List Char × List Char)
  | [] => none
  | c :: rest =>
    if c = ']' then some ([], rest)
    else if c = Char.ofNat 10 then none
    else
      match closeSearch rest with
      | some (cap, r) => some (c :: cap, r)
      | none => none

/-- The `findall` scan; the fuel (the title length at the top call) only
decreases and is always sufficient because every step consumes at least
one character. -/
def tagScan : Nat → List Char → List (List Char)
  | 0, _ => []
  | _ + 1, [] => []
  | fuel + 1, c :: rest =>
    if c = '[' then
      match rest with
      | [] => []
      | c0 :: t2 =>
        if c0 = Char.ofNat 10 then tagScan fuel rest
        else
          match closeSearch t2 with
          | some (cap, r) => (c0 :: cap) :: tagScan fuel r
          | none => tagScan fuel rest
    else tagScan fuel rest

/-- `extract_title_tags(title)` (lines 72-77): bracketed segments in
order, each stripped, segments empty after stripping dropped. -/
def extract_title_tags (title : List Char) : List (List Char) :=
  if title = [] then []
  else
    (tagScan title.length title).foldr
      (fun t acc => if pyStrip t = [] then acc else pyStrip t :: acc) []

/-- `article.get("id") or article.get("aid") or article.get("article_id")
or article.get("_id") or ""` (lines 129-135). -/
def articleIdOf (article : Article) : List Char :=
  firstTruthyD [article.id, article.aid, article.article_id, article.oid]

/-- `article.get("board", article.get("board_name", ""))` (line 137). -/
def boardOf (article : Article) : List Char :=
  match article.board with
  | some b => b
  | none => article.board_name.getD []

/-- `to_jsonl_records(article, source)` (`export_rag_jsonl.py` lines
127-214).  The generator is modelled as the full list of yielded
records; `none` models the (possible) divergence of the chunking step
for pathological titles.  `total_chunks = len(content_chunks) if
content_chunks else 1` and the empty-content replacement
`content_chunks = [""]` are both taken before enumeration. -/
def to_jsonl_records (article : Article) (source : List Char) : Option (List Record) :=
  match chunk_with_title_prefix (clean_article_with_comments article)
      (article.article_title.getD []) 1600 200 with
  | none => none
  | some content_chunks =>
    some (buildRecords source (boardOf article) (articleIdOf article) (article.url.getD [])
      (article.article_title.getD []) (article.author.getD [])
      (normalize_datetime (firstTruthyOpt [article.date, article.created_at, article.time]))
      (extract_title_tags (article.article_title.getD []))
      (if content_chunks = [] then 1 else content_chunks.length)
      (article.has_media.getD false)
      (sha256Tag ++ sha256_hexdigest (clean_article_with_comments article))
      0
      (if content_chunks = [] then [[]] else content_chunks))

/-- The top-level input document `{"articles": [...]}`. -/
structure InputDoc where
  articles : List Article
deriving DecidableEq

/-- The exclusion marker `"[原創]"` of `convert_to_jsonl` (line 227). -/
def exclusionMarker : List Char := ("[原創]").toList

/-- Python's substring test `pat in s`: `pat` occurs contiguously in `s`. -/
def containsSub (pat : List Char) : List Char → Bool
  | [] => decide (pat = [])
  | c :: rest => decide ((c :: rest).take pat.length = pat) || containsSub pat rest

/-- The `for article in data["articles"]` loop of `convert_to_jsonl`
(lines 222-235): skip articles whose title contains the marker, count
the others and emit their records as lines.  The result is (emitted
lines, article count, line count); the source returns the two counts and
writes the lines to the output file. -/
def convertLoop (source : List Char) : List Article → Option (List Record × Nat × Nat)
  | [] => some ([], 0, 0)
  | article :: rest =>
    if containsSub exclusionMarker (article.article_title.getD []) then convertLoop source rest
    else
      match to_jsonl_records article source with
      | none => none
      | some recs =>
        match convertLoop source rest with
        | none => none
        | some (lines, count_articles, count_lines) =>
          some (recs ++ lines, count_articles + 1, count_lines + recs.length)

/-- `convert_to_jsonl(input, output, source)` (lines 217-235) on an
already-parsed document. -/
def convert_to_jsonl (doc : InputDoc) (source : List Char) : Option (List Record × Nat × Nat) :=
  convertLoop source doc.articles

/-- The articles that are not skipped: title does not contain the
exclusion marker. -/
def keptArticles (articles : List Article) : List Article :=
  articles.filter (fun a => !(containsSub exclusionMarker (a.article_title.getD [])))

/-- Record lists of a sequence of articles, `none` if any diverges. -/
def seqRecords (source : List Char) : List Article → Option (List (List Record))
  | [] => some []
  | article :: rest =>
    match to_jsonl_records article source with
    | none => none
    | some recs =>
      match seqRecords source rest with
      | none => none
      | some rss => some (recs :: rss)

/-- The pathological article of the C4 counterexample: a 1400-character
title (adjusted chunk limit `1600 - 1407 = 193 < 200 = overlap`) and a
300-character body, on which the chunking loop never advances. -/
def longTitleArticle : Article :=
  { article_title := some (List.replicate 1400 'a'), content := some (List.replicate 300 'b') }

/-- An article with a title but empty body and no replies. -/
def titledEmptyArticle : Article := { article_title := some ['T'] }

def pttSource : List Char := ("PTT").toList

/-- The all-defaults article: every field missing. -/
def emptyArticle : Article := {}

/-- Like `emptyArticle` but with an author: same assembled content. -/
def authorArticle : Article := { author := some ("someone").toList }

/-- The hex SHA-256 of the empty string, as `dedupe_key`. -/
def emptyShaKey : List Char :=
  ("sha256:e3b0c44298fc1c149afbf4c8996fb92427ae41e4649b934ca495991b7852b855").toList

/-- The single record produced for `emptyArticle` with source `"PTT"`. -/
def emptyRecord : Record :=
  { content := []
    id := ("PTT___0").toList
    source := pttSource
    url := []
    board := []
    title := []
    author := []
    created_at := []
    tags := []
    chunk_index := 0
    total_chunks := 1
    has_media := false
    dedupe_key := emptyShaKey }

def authorRecord : Record := { emptyRecord with author := ("someone").toList }

/-- The single record of `titledEmptyArticle`: empty content despite the
title. -/
def titledEmptyRecord : Record := { emptyRecord with title := ['T'] }

def markerArticle : Article := { article_title := some ("[原創]x").toList }

def sampleDoc : InputDoc := ⟨[markerArticle, emptyArticle]⟩

theorem pySlice_length (l : List Char) (a b : Nat) :
    (pySlice l a b).length = min (b - a) (l.length - a) := by
  simp [pySlice]

theorem pySlice_take (l : List Char) (a b k : Nat) :
    (pySlice l a b).take k = pySlice l a (min b (a + k)) := by
  simp only [pySlice, List.take_take]
  congr 1
  omega

theorem pySlice_drop (l : List Char) (a b k : Nat) :
    (pySlice l a b).drop k = pySlice l (a + k) b := by
  simp only [pySlice, List.drop_take, List.drop_drop]
  have h1 : b - a - k = b - (a + k) := by omega
  rw [h1]

theorem pySlice_append_drop (l : List Char) (a b : Nat) (hab : a ≤ b) :
    pySlice l a b ++ l.drop b = l.drop a := by
  have h : l.drop b = (l.drop a).drop (b - a) := by
    rw [List.drop_drop]
    congr 1
    omega
  rw [h, pySlice]
  exact List.take_append_drop _ _

theorem pySlice_full (l : List Char) (a : Nat) : pySlice l a l.length = l.drop a := by
  rw [pySlice]
  exact List.take_of_length_le (by simp)

/-- When `overlap >= max_chars` and at least one full window fits strictly
inside the text, the loop never advances and runs out of any amount of
fuel: the Python `while` loop diverges. -/
theorem chunkLoop_stuck (t : List Char) (m : Nat) (ov : Int) (hov : 0 ≤ ov) (hmo : m ≤ ov.toNat) :
    ∀ fuel start, start + m < t.length → chunkLoop t m ov fuel start = none := by
  intro fuel
  induction fuel with
  | zero => intro start _; rfl
  | succ fuel ih =>
    intro start h
    have hs : start < t.length := by omega
    have hne : ¬ (min (start + m) t.length = t.length) := by omega
    have harg : (((min (start + m) t.length : Nat) : Int) - ov).toNat = start + m - ov.toNat := by
      omega
    rw [chunkLoop, if_pos hs, if_neg hne, harg, ih (start + m - ov.toNat) (by omega)]

/-- When `0 <= overlap < max_chars`, fuel exceeding the residual length is
enough: the loop terminates (each iteration advances `start` by at least
`max_chars - overlap >= 1`). -/
theorem chunkLoop_terminates (t : List Char) (m : Nat) (ov : Int) (hm : 0 < m) (hov : 0 ≤ ov)
    (hmo : ov.toNat < m) :
    ∀ fuel start, t.length - start < fuel → ∃ cs, chunkLoop t m ov fuel start = some cs := by
  intro fuel
  induction fuel with
  | zero => intro start h; omega
  | succ fuel ih =>
    intro start h
    by_cases hs : start < t.length
    · by_cases hend : min (start + m) t.length = t.length
      · exact ⟨_, by rw [chunkLoop, if_pos hs, if_pos hend]⟩
      · obtain ⟨cs, hcs⟩ := ih (((min (start + m) t.length : Nat) : Int) - ov).toNat (by omega)
        exact ⟨_, by rw [chunkLoop, if_pos hs, if_neg hend, hcs]⟩
    · exact ⟨[], by rw [chunkLoop, if_neg hs]⟩

/-- Shape of a successful loop result: empty list when the start is past
the end, otherwise the first chunk is the slice of the current window. -/
theorem chunkLoop_head (t : List Char) (m : Nat) (ov : Int) (fuel start : Nat)
    (cs : List (List Char)) (h : chunkLoop t m ov fuel start = some cs) :
    (t.length ≤ start ∧ cs = []) ∨
      (start < t.length ∧ ∃ r, cs = pySlice t start (min (start + m) t.length) :: r) := by
  cases fuel with
  | zero => exact absurd h (by simp [chunkLoop])
  | succ fuel =>
    by_cases hs : start < t.length
    · right
      refine ⟨hs, ?_⟩
      by_cases hend : min (start + m) t.length = t.length
      · rw [chunkLoop, if_pos hs, if_pos hend] at h
        exact ⟨[], (Option.some_inj.mp h).symm⟩
      · rw [chunkLoop, if_pos hs, if_neg hend] at h
        cases hrec : chunkLoop t m ov fuel (((min (start + m) t.length : Nat) : Int) - ov).toNat with
        | none => rw [hrec] at h; exact absurd h (by simp)
        | some rest => rw [hrec] at h; exact ⟨rest, (Option.some_inj.mp h).symm⟩
    · left
      rw [chunkLoop, if_neg hs] at h
      exact ⟨by omega, (Option.some_inj.mp h).symm⟩

/-- Every chunk the loop produces has length at most `max_chars`, and every
chunk except possibly the last has length exactly `max_chars`. -/
theorem chunkLoop_lengths (t : List Char) (m : Nat) (ov : Int) (hm : 0 < m) :
    ∀ fuel start cs, chunkLoop t m ov fuel start = some cs →
      ∀ i (hi : i < cs.length),
        (cs.get ⟨i, hi⟩).length ≤ m ∧ (i + 1 < cs.length → (cs.get ⟨i, hi⟩).length = m) := by
  intro fuel
  induction fuel with
  | zero => intro start cs h; exact absurd h (by simp [chunkLoop])
  | succ fuel ih =>
    intro start cs h i hi
    by_cases hs : start < t.length
    · by_cases hend : min (start + m) t.length = t.length
      · rw [chunkLoop, if_pos hs, if_pos hend] at h
        cases (Option.some_inj.mp h).symm
        cases i with
        | zero =>
          constructor
          · show (pySlice t start (min (start + m) t.length)).length ≤ m
            rw [pySlice_length]
            omega
          · intro h1
            simp at h1
        | succ j => simp at hi
      · rw [chunkLoop, if_pos hs, if_neg hend] at h
        cases hrec : chunkLoop t m ov fuel (((min (start + m) t.length : Nat) : Int) - ov).toNat with
        | none => rw [hrec] at h; exact absurd h (by simp)
        | some rest =>
          rw [hrec] at h
          cases (Option.some_inj.mp h).symm
          cases i with
          | zero =>
            have hlen : (pySlice t start (min (start + m) t.length)).length = m := by
              rw [pySlice_length]
              omega
            exact ⟨le_of_eq hlen, fun _ => hlen⟩
          | succ j =>
            have hj : j < rest.length := by simpa using hi
            have := ih _ rest hrec j hj
            exact ⟨this.1, fun h1 => this.2 (by simpa using h1)⟩
    · rw [chunkLoop, if_neg hs] at h
      cases (Option.some_inj.mp h).symm
      simp at hi

/-- Every chunk the loop produces has length at most `max_chars`
(membership form). -/
theorem chunkLoop_mem_length (t : List Char) (m : Nat) (ov : Int) (hm : 0 < m)
    (fuel start : Nat) (cs : List (List Char)) (h : chunkLoop t m ov fuel start = some cs) :
    ∀ c ∈ cs, c.length ≤ m := by
  intro c hc
  obtain ⟨i, hi, rfl⟩ := List.mem_iff_get.mp hc
  exact (chunkLoop_lengths t m ov hm fuel start cs h i.val i.isLt).1

/-- Consecutive chunks share exactly `overlap` characters: the first
`overlap` characters of a chunk equal the last `overlap` characters of
its predecessor (whose length is `max_chars`). -/
theorem chunkLoop_overlap (t : List Char) (m : Nat) (ov : Int) (hm : 0 < m) (hov : 0 ≤ ov)
    (hmo : ov.toNat < m) :
    ∀ fuel start cs, chunkLoop t m ov fuel start = some cs →
      ∀ i (h1 : i + 1 < cs.length),
        ov.toNat ≤ (cs.get ⟨i + 1, h1⟩).length ∧
          (cs.get ⟨i + 1, h1⟩).take ov.toNat =
            (cs.get ⟨i, Nat.lt_of_succ_lt h1⟩).drop (m - ov.toNat) := by
  intro fuel
  induction fuel with
  | zero => intro start cs h; exact absurd h (by simp [chunkLoop])
  | succ fuel ih =>
    intro start cs h i h1
    by_cases hs : start < t.length
    · by_cases hend : min (start + m) t.length = t.length
      · rw [chunkLoop, if_pos hs, if_pos hend] at h
        cases (Option.some_inj.mp h).symm
        simp at h1
      · rw [chunkLoop, if_pos hs, if_neg hend] at h
        cases hrec : chunkLoop t m ov fuel (((min (start + m) t.length : Nat) : Int) - ov).toNat with
        | none => rw [hrec] at h; exact absurd h (by simp)
        | some rest =>
          rw [hrec] at h
          cases (Option.some_inj.mp h).symm
          have he : min (start + m) t.length = start + m := by omega
          have hstart' : (((min (start + m) t.length : Nat) : Int) - ov).toNat
              = start + m - ov.toNat := by omega
          rw [hstart'] at hrec
          cases i with
          | zero =>
            have hrl : 0 < rest.length := by simpa using h1
            have hrne : rest ≠ [] := by
              intro hne
              rw [hne] at hrl
              simp at hrl
            rcases chunkLoop_head t m ov fuel _ rest hrec with ⟨_, hnil⟩ | ⟨hlt, r', hr'⟩
            · exact absurd hnil hrne
            · have hget : rest.get ⟨0, hrl⟩ =
                  pySlice t (start + m - ov.toNat)
                    (min (start + m - ov.toNat + m) t.length) := by
                rw [List.get_of_eq hr']
                rfl
              constructor
              · show ov.toNat ≤ (rest.get ⟨0, hrl⟩).length
                rw [hget, pySlice_length]
                omega
              · show (rest.get ⟨0, hrl⟩).take ov.toNat =
                  (pySlice t start (min (start + m) t.length)).drop (m - ov.toNat)
                rw [hget, pySlice_take, pySlice_drop, he]
                have hmin : min (min (start + m - ov.toNat + m) t.length)
                    (start + m - ov.toNat + ov.toNat) = start + m - ov.toNat + ov.toNat := by
                  omega
                rw [hmin]
                have h2 : start + (m - ov.toNat) = start + m - ov.toNat := by omega
                have h3 : start + m - ov.toNat + ov.toNat = start + m := by omega
                rw [h2, h3]
          | succ j =>
            have hj1 : j + 1 < rest.length := by simpa using h1
            exact ih _ rest hrec j hj1
    · rw [chunkLoop, if_neg hs] at h
      cases (Option.some_inj.mp h).symm
      simp at h1

/-- Dropping the overlap from every chunk (the first included) and
concatenating yields the text from position `start + overlap` on. -/
theorem chunkLoop_reconTail (t : List Char) (m : Nat) (ov : Int) (hm : 0 < m) (hov : 0 ≤ ov)
    (hmo : ov.toNat < m) :
    ∀ fuel start cs, chunkLoop t m ov fuel start = some cs →
      reconTail ov.toNat cs = t.drop (start + ov.toNat) := by
  intro fuel
  induction fuel with
  | zero => intro start cs h; exact absurd h (by simp [chunkLoop])
  | succ fuel ih =>
    intro start cs h
    by_cases hs : start < t.length
    · by_cases hend : min (start + m) t.length = t.length
      · rw [chunkLoop, if_pos hs, if_pos hend] at h
        cases (Option.some_inj.mp h).symm
        show (pySlice t start (min (start + m) t.length)).drop ov.toNat ++ [].flatten
          = t.drop (start + ov.toNat)
        rw [hend, pySlice_full]
        simp [List.drop_drop, Nat.add_comm]
      · rw [chunkLoop, if_pos hs, if_neg hend] at h
        cases hrec : chunkLoop t m ov fuel (((min (start + m) t.length : Nat) : Int) - ov).toNat with
        | none => rw [hrec] at h; exact absurd h (by simp)
        | some rest =>
          rw [hrec] at h
          cases (Option.some_inj.mp h).symm
          have he : min (start + m) t.length = start + m := by omega
          have hstart' : (((min (start + m) t.length : Nat) : Int) - ov).toNat
              = start + m - ov.toNat := by omega
          rw [hstart'] at hrec
          show (pySlice t start (min (start + m) t.length)).drop ov.toNat
              ++ reconTail ov.toNat rest = t.drop (start + ov.toNat)
          rw [ih _ rest hrec, he, pySlice_drop]
          have h2 : start + m - ov.toNat + ov.toNat = start + m := by omega
          rw [h2]
          exact pySlice_append_drop t (start + ov.toNat) (start + m) (by omega)
    · rw [chunkLoop, if_neg hs] at h
      cases (Option.some_inj.mp h).symm
      rw [List.drop_eq_nil_of_le (by omega)]
      rfl

/-- Concatenating the chunks after removing each non-first chunk's
leading overlap reconstructs the text from `start` on. -/
theorem chunkLoop_recon (t : List Char) (m : Nat) (ov : Int) (hm : 0 < m) (hov : 0 ≤ ov)
    (hmo : ov.toNat < m) (fuel start : Nat) (cs : List (List Char))
    (h : chunkLoop t m ov fuel start = some cs) (hs : start < t.length) :
    dropOverlapJoin ov.toNat cs = t.drop start := by
  cases fuel with
  | zero => exact absurd h (by simp [chunkLoop])
  | succ fuel =>
    by_cases hend : min (start + m) t.length = t.length
    · rw [chunkLoop, if_pos hs, if_pos hend] at h
      cases (Option.some_inj.mp h).symm
      show pySlice t start (min (start + m) t.length) ++ reconTail ov.toNat [] = t.drop start
      rw [hend, pySlice_full]
      simp [reconTail]
    · rw [chunkLoop, if_pos hs, if_neg hend] at h
      cases hrec : chunkLoop t m ov fuel (((min (start + m) t.length : Nat) : Int) - ov).toNat with
      | none => rw [hrec] at h; exact absurd h (by simp)
      | some rest =>
        rw [hrec] at h
        cases (Option.some_inj.mp h).symm
        have he : min (start + m) t.length = start + m := by omega
        have hstart' : (((min (start + m) t.length : Nat) : Int) - ov).toNat
            = start + m - ov.toNat := by omega
        rw [hstart'] at hrec
        show pySlice t start (min (start + m) t.length) ++ reconTail ov.toNat rest = t.drop start
        rw [chunkLoop_reconTail t m ov hm hov hmo fuel _ rest hrec, he]
        have h2 : start + m - ov.toNat + ov.toNat = start + m := by omega
        rw [h2]
        exact pySlice_append_drop t start (start + m) (by omega)

/-- A successful run with at least two chunks forces `overlap < max_chars`
(otherwise the loop would not have advanced and would have diverged). -/
theorem chunkLoop_two_chunks (t : List Char) (m : Nat) (ov : Int) (hm : 0 < m) (hov : 0 ≤ ov)
    (fuel : Nat) (cs : List (List Char)) (h : chunkLoop t m ov fuel 0 = some cs)
    (h2 : 2 ≤ cs.length) : ov.toNat < m := by
  by_contra hge
  push_neg at hge
  cases fuel with
  | zero => exact absurd h (by simp [chunkLoop])
  | succ fuel =>
    by_cases hs : 0 < t.length
    · by_cases hend : min (0 + m) t.length = t.length
      · rw [chunkLoop, if_pos hs, if_pos hend] at h
        cases (Option.some_inj.mp h).symm
        simp at h2
      · have hlt : 0 + m < t.length := by omega
        rw [chunkLoop_stuck t m ov hov hge (fuel + 1) 0 hlt] at h
        exact absurd h (by simp)
    · rw [chunkLoop, if_neg hs] at h
      cases (Option.some_inj.mp h).symm
      simp at h2

/-- Helper: with `max_chars > 0` and `0 <= overlap < max_chars` the chunker
terminates (the fuel `length + 1` is sufficient). -/
theorem simple_chunk_text_total (text : List Char) (mc ov : Int) (hm : 0 < mc) (hov : 0 ≤ ov)
    (hlt : ov < mc) : ∃ cs, simple_chunk_text text mc ov = some cs := by
  unfold simple_chunk_text
  by_cases hstrip : pyStrip text = []
  · rw [if_pos hstrip]
    exact ⟨[], rfl⟩
  · rw [if_neg hstrip, if_neg (by omega)]
    exact chunkLoop_terminates (pyStrip text) mc.toNat ov (by omega) hov (by omega) _ 0 (by omega)

/-- Helper: every chunk of a successful run is at most `max_chars` long. -/
theorem simple_chunk_text_mem_length (text : List Char) (mc ov : Int) (hm : 0 < mc)
    (cs : List (List Char)) (h : simple_chunk_text text mc ov = some cs) :
    ∀ c ∈ cs, c.length ≤ mc.toNat := by
  unfold simple_chunk_text at h
  by_cases hstrip : pyStrip text = []
  · rw [if_pos hstrip] at h
    cases (Option.some_inj.mp h).symm
    intro c hc
    simp at hc
  · rw [if_neg hstrip, if_neg (by omega)] at h
    exact chunkLoop_mem_length _ _ ov (by omega) _ 0 cs h

/-- Claim C1: for every input text whose trimmed form is non-empty (the
chunker's first step trims the text, so "the text" below is the trimmed
text) and every overlap >= 0: if `max_chars <= 0` the entire (trimmed)
text is returned as one chunk; otherwise, in any terminating run, every
chunk except possibly the last is exactly `max_chars` long, every chunk
(the final one included) is at most `max_chars` long, and each pair of
consecutive chunks overlaps by exactly `overlap` characters (the first
`overlap` characters of a chunk are the last `overlap` characters of its
predecessor). -/
theorem simple_chunk_text_chunk_shape (text : List Char) (mc ov : Int)
    (hne : pyStrip text ≠ []) (hov : 0 ≤ ov) :
    (mc ≤ 0 → simple_chunk_text text mc ov = some [pyStrip text]) ∧
    (0 < mc → ∀ cs, simple_chunk_text text mc ov = some cs →
      (∀ i (hi : i < cs.length), i + 1 < cs.length → (cs.get ⟨i, hi⟩).length = mc.toNat) ∧
      (∀ c ∈ cs, c.length ≤ mc.toNat) ∧
      (∀ i (h1 : i + 1 < cs.length),
        ov.toNat ≤ (cs.get ⟨i + 1, h1⟩).length ∧
        (cs.get ⟨i + 1, h1⟩).take ov.toNat
          = (cs.get ⟨i, Nat.lt_of_succ_lt h1⟩).drop (mc.toNat - ov.toNat))) := by
  constructor
  · intro hle
    unfold simple_chunk_text
    rw [if_neg hne, if_pos hle]
  · intro hpos cs hcs
    have hloop : chunkLoop (pyStrip text) mc.toNat ov ((pyStrip text).length + 1) 0 = some cs := by
      unfold simple_chunk_text at hcs
      rw [if_neg hne, if_neg (by omega)] at hcs
      exact hcs
    refine ⟨?_, ?_, ?_⟩
    · intro i hi h1
      exact (chunkLoop_lengths _ _ ov (by omega) _ 0 cs hloop i hi).2 h1
    · exact chunkLoop_mem_length _ _ ov (by omega) _ 0 cs hloop
    · intro i h1
      have h2 : 2 ≤ cs.length := by omega
      have hlt : ov.toNat < mc.toNat := chunkLoop_two_chunks _ _ ov (by omega) hov _ cs hloop h2
      exact chunkLoop_overlap _ _ ov (by omega) hov hlt _ 0 cs hloop i h1

/-- Witness for C1 at text `"xyzw"`, `max_chars = 3`, `overlap = 1`:
the chunks are `["xyz", "zw"]` and the first character of the second
chunk is the last character of the first. -/
theorem simple_chunk_text_chunk_shape_witness :
    simple_chunk_text ("xyzw").toList 3 1 = some [("xyz").toList, ("zw").toList] ∧
    ("zw").toList.take (1 : Int).toNat
      = ("xyz").toList.drop ((3 : Int).toNat - (1 : Int).toNat) := by
  have h := simple_chunk_text_chunk_shape ("xyzw").toList 3 1 (by decide) (by decide)
  refine ⟨by decide, ?_⟩
  have h2 := (h.2 (by decide) [("xyz").toList, ("zw").toList] (by decide)).2.2 0 (by decide)
  exact h2.2

/-- Counterexample for claim C2 as stated: (1) the chunker strips the
input first, so for the non-empty text `" a "` (with the default
parameters 1600/200) re-joining the chunks yields `"a"`, not the
original text; (2) for `max_chars = 1` (allowed by the claim's
`max_chars > 0`) and the default `overlap = 200` the chunking loop does
not terminate on `"ab"` (modelled as `none` for the loop's fuel; see
`chunkLoop_stuck` for the proof that no amount of fuel helps), so no
chunk list is returned at all. -/
theorem simple_chunk_text_recon_counterexample :
    (simple_chunk_text (" a ").toList 1600 200 = some [("a").toList] ∧
      dropOverlapJoin (200 : Int).toNat [("a").toList] ≠ (" a ").toList) ∧
    simple_chunk_text ("ab").toList 1 200 = none := by
  exact ⟨⟨by decide, by decide⟩, by decide⟩

/-- Claim C2 (amended): for every text whose trimmed form is non-empty
and all parameters with `max_chars > 0` and `0 <= overlap < max_chars`,
the chunker succeeds and concatenating the chunks — keeping the first
chunk whole and removing from each later chunk the `overlap` characters
it shares with its predecessor — reconstructs the trimmed input text
exactly. -/
theorem simple_chunk_text_recon (text : List Char) (mc ov : Int) (hne : pyStrip text ≠ [])
    (hm : 0 < mc) (hov : 0 ≤ ov) (hlt : ov < mc) :
    ∃ cs, simple_chunk_text text mc ov = some cs ∧
      dropOverlapJoin ov.toNat cs = pyStrip text := by
  obtain ⟨cs, hcs⟩ := simple_chunk_text_total text mc ov hm hov hlt
  refine ⟨cs, hcs, ?_⟩
  have hloop : chunkLoop (pyStrip text) mc.toNat ov ((pyStrip text).length + 1) 0 = some cs := by
    unfold simple_chunk_text at hcs
    rw [if_neg hne, if_neg (by omega)] at hcs
    exact hcs
  have h0 : 0 < (pyStrip text).length := List.length_pos.mpr hne
  have hrec := chunkLoop_recon (pyStrip text) mc.toNat ov (by omega) hov (by omega) _ 0 cs hloop h0
  simpa using hrec

/-- Witness for (amended) C2 at text `"abcde"`, `max_chars = 3`,
`overlap = 1`: the chunks `["abc", "cde"]` re-join to `"abcde"`. -/
theorem simple_chunk_text_recon_witness :
    dropOverlapJoin (1 : Int).toNat [("abc").toList, ("cde").toList]
      = pyStrip ("abcde").toList := by
  obtain ⟨cs, hcs, hrec⟩ :=
    simple_chunk_text_recon ("abcde").toList 3 1 (by decide) (by decide) (by decide) (by decide)
  have hcs' : cs = [("abc").toList, ("cde").toList] := by
    have h2 : simple_chunk_text ("abcde").toList 3 1
        = some [("abc").toList, ("cde").toList] := by decide
    rw [hcs] at h2
    exact Option.some_inj.mp h2
  rw [hcs'] at hrec
  exact hrec

/-- Claim C3: with an empty title, `chunk_with_title_prefix` returns the
core chunker's result unchanged; with a non-empty title it subtracts the
length of the literal prefix `"標題: <title> | "` from `max_chars`,
re-runs the core chunker with the reduced limit, and prepends the prefix
to every resulting chunk, so that whenever the adjusted limit is
positive no returned chunk exceeds the original `max_chars`. -/
theorem chunk_with_title_prefix_spec (text title : List Char) (mc ov : Int) :
    (title = [] → chunk_with_title_prefix text title mc ov = simple_chunk_text text mc ov) ∧
    (title ≠ [] → 0 < mc - ((titleHeader title).length : Int) →
      ∀ res, chunk_with_title_prefix text title mc ov = some res →
        (∃ acs, simple_chunk_text text (mc - ((titleHeader title).length : Int)) ov = some acs ∧
          res = acs.map (fun c => titleHeader title ++ c)) ∧
        (∀ c ∈ res, c.length ≤ mc.toNat)) := by
  constructor
  · intro ht
    subst ht
    cases h : simple_chunk_text text mc ov with
    | none => simp only [ chunk_with_title_prefix, h]
    | some chunks =>
      simp only [ chunk_with_title_prefix, h]
      simp
  · intro ht hadj res hres
    cases h1 : simple_chunk_text text mc ov with
    | none =>
      simp only [ chunk_with_title_prefix, h1] at hres
      exact Option.noConfusion hres
    | some chunks =>
      simp only [ chunk_with_title_prefix, h1, if_neg ht] at hres
      cases h2 : simple_chunk_text text (mc - ((titleHeader title).length : Int)) ov with
      | none =>
        simp only [h2] at hres
        exact Option.noConfusion hres
      | some acs =>
        simp only [h2] at hres
        have hres' : res = acs.map (fun c => titleHeader title ++ c) :=
          (Option.some_inj.mp hres).symm
        refine ⟨⟨acs, rfl, hres'⟩, ?_⟩
        intro c hc
        rw [hres'] at hc
        obtain ⟨a, ha, rfl⟩ := List.mem_map.mp hc
        have halen : a.length ≤ (mc - ((titleHeader title).length : Int)).toNat :=
          simple_chunk_text_mem_length text _ ov hadj acs h2 a ha
        rw [List.length_append]
        omega

/-- Witness for C3: empty title returns the chunker's result unchanged,
and with title `"T"`, `max_chars = 10`, the prefixed chunk
`"標題: T | ab"` has length exactly 10. -/
theorem chunk_with_title_prefix_spec_witness :
    chunk_with_title_prefix ("abcdef").toList [] 7 2 = simple_chunk_text ("abcdef").toList 7 2 ∧
    (titleHeader ("T").toList ++ ("ab").toList).length ≤ (10 : Int).toNat := by
  constructor
  · exact (chunk_with_title_prefix_spec ("abcdef").toList [] 7 2).1 rfl
  · exact ((chunk_with_title_prefix_spec ("abcdef").toList ("T").toList 10 0).2
      (by decide) (by decide)
      [titleHeader ("T").toList ++ ("ab").toList, titleHeader ("T").toList ++ ("cd").toList,
        titleHeader ("T").toList ++ ("ef").toList]
      (by decide)).2
      (titleHeader ("T").toList ++ ("ab").toList) (by simp)

/-- Claim C10: for every text and all parameters with `max_chars > 0` and
`0 <= overlap < max_chars` (the defaults 1600/200 included), the chunking
loop of `simple_chunk_text` terminates: the window start strictly
advances each iteration, so fuel `length + 1` suffices and a finite chunk
list is returned. -/
theorem simple_chunk_text_termination (text : List Char) (mc ov : Int) (hm : 0 < mc)
    (hov : 0 ≤ ov) (hlt : ov < mc) :
    ∃ cs, simple_chunk_text text mc ov = some cs :=
  simple_chunk_text_total text mc ov hm hov hlt

/-- Witness for C10 at the default parameters 1600/200 on a short text. -/
theorem simple_chunk_text_termination_witness :
    (simple_chunk_text ("hello world").toList 1600 200).isSome = true := by
  obtain ⟨cs, hcs⟩ :=
    simple_chunk_text_termination ("hello world").toList 1600 200
      (by decide) (by decide) (by decide)
  rw [hcs]
  rfl

section RecordLemmas

variable (src bd aid url ttl auth cat : List Char) (tags : List (List Char))
variable (tc : Nat) (hm : Bool) (dk : List Char)

theorem buildRecords_length :
    ∀ (idx : Nat) (cs : List (List Char)),
      (buildRecords src bd aid url ttl auth cat tags tc hm dk idx cs).length = cs.length := by
  intro idx cs
  induction cs generalizing idx with
  | nil => rfl
  | cons c rest ih => simp [buildRecords, ih]

theorem buildRecords_chunk_index :
    ∀ (idx : Nat) (cs : List (List Char)) (i : Nat)
      (h : i < (buildRecords src bd aid url ttl auth cat tags tc hm dk idx cs).length),
      ((buildRecords src bd aid url ttl auth cat tags tc hm dk idx cs).get ⟨i, h⟩).chunk_index
        = idx + i := by
  intro idx cs
  induction cs generalizing idx with
  | nil => intro i h; simp [buildRecords] at h
  | cons c rest ih =>
    intro i h
    cases i with
    | zero => rfl
    | succ j =>
      have hj := ih (idx + 1) j (by simpa [buildRecords] using h)
      have hshift :
          ((buildRecords src bd aid url ttl auth cat tags tc hm dk idx (c :: rest)).get
            ⟨j + 1, h⟩)
          = ((buildRecords src bd aid url ttl auth cat tags tc hm dk (idx + 1) rest).get
            ⟨j, by simpa [buildRecords] using h⟩) := rfl
      rw [hshift, hj]
      omega

theorem buildRecords_mem :
    ∀ (idx : Nat) (cs : List (List Char)) (r : Record),
      r ∈ buildRecords src bd aid url ttl auth cat tags tc hm dk idx cs →
        r.total_chunks = tc ∧ r.dedupe_key = dk := by
  intro idx cs
  induction cs generalizing idx with
  | nil => intro r hr; simp [buildRecords] at hr
  | cons c rest ih =>
    intro r hr
    rcases List.mem_cons.mp hr with hhead | htail
    · rw [hhead]
      exact ⟨rfl, rfl⟩
    · exact ih (idx + 1) r htail

end RecordLemmas

theorem simple_chunk_text_nil (mc ov : Int) : simple_chunk_text [] mc ov = some [] := rfl

theorem chunk_with_title_prefix_nil (title : List Char) (mc ov : Int) :
    chunk_with_title_prefix [] title mc ov = some [] := by
  by_cases ht : title = [] <;>
    simp [ chunk_with_title_prefix, simple_chunk_text_nil, ht]

/-- Helper: invariants of the record-building loop when the chunk list is
non-empty and `total_chunks` is its length. -/
theorem buildRecords_spec (src bd aid url ttl auth cat : List Char) (tags : List (List Char))
    (hm : Bool) (dk : List Char) (ccs : List (List Char)) (hne : ccs ≠ []) (tc : Nat)
    (htc : tc = ccs.length) (recs : List Record)
    (hrecs : recs = buildRecords src bd aid url ttl auth cat tags tc hm dk 0 ccs) :
    (∀ i (hi : i < recs.length), (recs.get ⟨i, hi⟩).chunk_index = i) ∧
    (∀ r ∈ recs, r.total_chunks = recs.length) ∧ 1 ≤ recs.length := by
  subst hrecs
  subst htc
  refine ⟨?_, ?_, ?_⟩
  · intro i hi
    simpa using buildRecords_chunk_index src bd aid url ttl auth cat tags _ hm dk 0 ccs i hi
  · intro r hr
    have hmem := buildRecords_mem src bd aid url ttl auth cat tags _ hm dk 0 ccs r hr
    rw [hmem.1, buildRecords_length]
  · rw [buildRecords_length]
    exact List.length_pos.mpr hne

/-- Claim C4 (amended): whenever the record builder terminates (returns
its record list; for titles of length 1393-1592 with long content the
chunking loop inside diverges and no record is produced), the records
carry zero-based, strictly increasing `chunk_index` values (`chunk_index
= position`), every record's `total_chunks` equals the number of records
of the article (at least 1, even for empty content), and an article whose
assembled content is empty yields exactly one record with `content = ""`
(the title prefix is not applied to it) and `total_chunks = 1`. -/
theorem to_jsonl_records_invariants (article : Article) (source : List Char) (recs : List Record)
    (h : to_jsonl_records article source = some recs) :
    (∀ i (hi : i < recs.length), (recs.get ⟨i, hi⟩).chunk_index = i) ∧
    (∀ r ∈ recs, r.total_chunks = recs.length) ∧
    1 ≤ recs.length ∧
    (clean_article_with_comments article = [] →
      recs.length = 1 ∧ ∀ r ∈ recs, r.content = [] ∧ r.total_chunks = 1) := by
  cases hc : chunk_with_title_prefix (clean_article_with_comments article)
      (article.article_title.getD []) 1600 200 with
  | none =>
    simp only [to_jsonl_records, hc] at h
    exact Option.noConfusion h
  | some cs0 =>
    simp only [to_jsonl_records, hc] at h
    have hrecs : recs = buildRecords source (boardOf article) (articleIdOf article)
        (article.url.getD []) (article.article_title.getD []) (article.author.getD [])
        (normalize_datetime (firstTruthyOpt [article.date, article.created_at, article.time]))
        (extract_title_tags (article.article_title.getD []))
        (if cs0 = [] then 1 else cs0.length)
        (article.has_media.getD false)
        (sha256Tag ++ sha256_hexdigest (clean_article_with_comments article))
        0 (if cs0 = [] then [[]] else cs0) := (Option.some_inj.mp h).symm
    have hb := buildRecords_spec _ _ _ _ _ _ _ _ _ _ (if cs0 = [] then [[]] else cs0)
      (by by_cases hcs0 : cs0 = [] <;> simp [hcs0]) _
      (by by_cases hcs0 : cs0 = [] <;> simp [hcs0]) recs hrecs
    refine ⟨hb.1, hb.2.1, hb.2.2, ?_⟩
    intro hclean
    rw [hclean] at hc
    rw [ chunk_with_title_prefix_nil] at hc
    have hcs0 : cs0 = [] := (Option.some_inj.mp hc).symm
    rw [hcs0] at hrecs
    have hr2 : recs = buildRecords source (boardOf article) (articleIdOf article)
        (article.url.getD []) (article.article_title.getD []) (article.author.getD [])
        (normalize_datetime (firstTruthyOpt [article.date, article.created_at, article.time]))
        (extract_title_tags (article.article_title.getD []))
        1 (article.has_media.getD false)
        (sha256Tag ++ sha256_hexdigest (clean_article_with_comments article))
        0 [[]] := by simpa using hrecs
    constructor
    · rw [hr2, buildRecords_length]
      rfl
    · intro r hr
      rw [hr2] at hr
      simp only [buildRecords] at hr
      rw [List.mem_singleton.mp hr]
      exact ⟨rfl, rfl⟩

/-- Witness for (amended) C4: the titled empty article has one record
whose `total_chunks` is the record count. -/
theorem to_jsonl_records_invariants_witness :
    titledEmptyRecord.total_chunks = ([titledEmptyRecord] : List Record).length := by
  exact (to_jsonl_records_invariants titledEmptyArticle pttSource [titledEmptyRecord]
    (by decide)).2.1 titledEmptyRecord (by simp)

/-- Counterexample for claim C4 as stated: (1) for the pathological
article the record builder diverges (the loop is `none` for every fuel,
see `chunkLoop_stuck`) and produces no record at all, against the
claimed minimum of one record per article; (2) an article with an empty
body, no replies and a *non-empty* title yields the single record with
`content = ""`, not the claimed "just the title prefix" (which is
non-empty). -/
theorem to_jsonl_records_counterexample :
    to_jsonl_records longTitleArticle pttSource = none ∧
    (to_jsonl_records titledEmptyArticle pttSource).map (fun rs => rs.map Record.content)
      = some [[]] ∧
    titleHeader ['T'] ≠ [] := by
  refine ⟨?_, by decide, by decide⟩
  have hclean : clean_article_with_comments longTitleArticle = List.replicate 300 'b' := by
    decide
  have hstrip : pyStrip (List.replicate 300 'b') = List.replicate 300 'b' := by decide
  have hlen : ((titleHeader (List.replicate 1400 'a')).length : Int) = 1407 := by decide
  have hfirst : simple_chunk_text (List.replicate 300 'b') 1600 200
      = some [List.replicate 300 'b'] := by decide
  have htitle : (longTitleArticle.article_title.getD []) = List.replicate 1400 'a' := rfl
  have hne : List.replicate 1400 'a' ≠ ([] : List Char) := by decide
  have hsecond : simple_chunk_text (List.replicate 300 'b') (1600 - 1407) 200 = none := by
    unfold simple_chunk_text
    rw [hstrip, if_neg (by decide), if_neg (by decide)]
    apply chunkLoop_stuck
    · decide
    · decide
    · decide
  have hchunk : chunk_with_title_prefix (List.replicate 300 'b') (List.replicate 1400 'a')
      1600 200 = none := by
    simp only [ chunk_with_title_prefix, hfirst, if_neg hne, hlen, hsecond]
  simp only [to_jsonl_records, htitle, hclean, hchunk]

/-- Helper: every record of an article carries the dedupe key computed
once from the article's full assembled content. -/
theorem to_jsonl_records_dedupe (article : Article) (source : List Char) (recs : List Record)
    (h : to_jsonl_records article source = some recs) :
    ∀ r ∈ recs,
      r.dedupe_key = sha256Tag ++ sha256_hexdigest (clean_article_with_comments article) := by
  cases hc : chunk_with_title_prefix (clean_article_with_comments article)
      (article.article_title.getD []) 1600 200 with
  | none =>
    simp only [to_jsonl_records, hc] at h
    exact Option.noConfusion h
  | some cs0 =>
    simp only [to_jsonl_records, hc] at h
    intro r hr
    rw [← Option.some_inj.mp h] at hr
    exact (buildRecords_mem _ _ _ _ _ _ _ _ _ _ _ _ _ r hr).2

/-- Claim C5: any two records of (possibly different) articles whose
assembled (flattened) content is byte-identical carry the same
`dedupe_key`; in particular all records of one article share it, and it
does not depend on title or author. -/
theorem dedupe_key_per_article (source : List Char) (a b : Article)
    (recs recs' : List Record) (r r' : Record)
    (ha : to_jsonl_records a source = some recs) (hb : to_jsonl_records b source = some recs')
    (hr : r ∈ recs) (hr' : r' ∈ recs')
    (hcc : clean_article_with_comments a = clean_article_with_comments b) :
    r.dedupe_key = r'.dedupe_key := by
  rw [to_jsonl_records_dedupe a source recs ha r hr,
    to_jsonl_records_dedupe b source recs' hb r' hr', hcc]

/-- Witness for C5: two articles differing only in `author` (hence with
byte-identical assembled content) get the same dedupe key. -/
theorem dedupe_key_per_article_witness : emptyRecord.dedupe_key = authorRecord.dedupe_key := by
  exact dedupe_key_per_article pttSource emptyArticle authorArticle
    [emptyRecord] [authorRecord] emptyRecord authorRecord
    (by decide) (by decide) (by decide) (by decide) (by decide)

/-- Claim C9: missing article fields resolve to defaults (empty strings,
empty tag list, `false`) and record construction completes normally: the
all-missing-fields article yields exactly its one default record, and
for any article whose title is absent the builder always returns a
record list with at least one record (no failure is possible). -/
theorem to_jsonl_records_defaults :
    to_jsonl_records emptyArticle pttSource = some [emptyRecord] ∧
    (∀ (source : List Char) (article : Article), article.article_title = none →
      ∃ recs, to_jsonl_records article source = some recs ∧ 1 ≤ recs.length) := by
  constructor
  · decide
  · intro source article ht
    obtain ⟨cs, hcs⟩ := simple_chunk_text_total (clean_article_with_comments article) 1600 200
      (by decide) (by decide) (by decide)
    have hchunk : chunk_with_title_prefix (clean_article_with_comments article)
        (article.article_title.getD []) 1600 200 = some cs := by
      rw [ht]
      simp only [ chunk_with_title_prefix, hcs, Option.getD]
      simp
    cases hres : to_jsonl_records article source with
    | none =>
      simp only [to_jsonl_records, hchunk] at hres
      exact Option.noConfusion hres
    | some recs =>
      refine ⟨recs, rfl, ?_⟩
      simp only [to_jsonl_records, hchunk] at hres
      rw [← Option.some_inj.mp hres, buildRecords_length]
      by_cases hcs0 : cs = []
      · simp [hcs0]
      · simp only [if_neg hcs0]
        exact List.length_pos.mpr hcs0

/-- Witness for C9: the all-defaults article produces a record list. -/
theorem to_jsonl_records_defaults_witness :
    (to_jsonl_records emptyArticle pttSource).isSome = true := by
  obtain ⟨recs, hrecs, _⟩ := to_jsonl_records_defaults.2 pttSource emptyArticle rfl
  rw [hrecs]
  rfl

/-- Helper: the `convertLoop` characterization, by induction over the
article list. -/
theorem convertLoop_spec (source : List Char) :
    ∀ (arts : List Article) (out : List Record × Nat × Nat),
      convertLoop source arts = some out →
        ∃ rss, seqRecords source (keptArticles arts) = some rss ∧
          out.1 = rss.flatten ∧ out.2.1 = (keptArticles arts).length ∧
          out.2.2 = rss.flatten.length := by
  intro arts
  induction arts with
  | nil =>
    intro out h
    have hout : out = ([], 0, 0) := (Option.some_inj.mp h).symm
    subst hout
    exact ⟨[], rfl, rfl, rfl, rfl⟩
  | cons a rest ih =>
    intro out h
    by_cases hmark : containsSub exclusionMarker (a.article_title.getD []) = true
    · simp only [convertLoop, if_pos hmark] at h
      obtain ⟨rss, hseq, h1, h2, h3⟩ := ih out h
      refine ⟨rss, ?_, h1, ?_, h3⟩
      · simpa [keptArticles, List.filter_cons, hmark] using hseq
      · simpa [keptArticles, List.filter_cons, hmark] using h2
    · simp only [convertLoop, if_neg hmark] at h
      cases hr : to_jsonl_records a source with
      | none =>
        rw [hr] at h
        exact Option.noConfusion h
      | some recs =>
        rw [hr] at h
        cases hloop : convertLoop source rest with
        | none =>
          rw [hloop] at h
          exact Option.noConfusion h
        | some acc =>
          rw [hloop] at h
          obtain ⟨lines, count_articles, count_lines⟩ := acc
          obtain ⟨rss, hseq, h1, h2, h3⟩ := ih (lines, count_articles, count_lines) hloop
          have h1' : lines = rss.flatten := h1
          have h2' : count_articles = (keptArticles rest).length := h2
          have h3' : count_lines = rss.flatten.length := h3
          have hout : out = (recs ++ lines, count_articles + 1, count_lines + recs.length) :=
            (Option.some_inj.mp h).symm
          subst hout
          have hkept : keptArticles (a :: rest) = a :: keptArticles rest := by
            simp [keptArticles, List.filter_cons, hmark]
          refine ⟨recs :: rss, ?_, ?_, ?_, ?_⟩
          · rw [hkept]
            simp only [seqRecords, hr, hseq]
          · simp [h1']
          · rw [hkept]
            simp [h2']
          · simp only [List.flatten_cons, List.length_append]
            omega

/-- Claim C6: a successful run of the pipeline driver emits exactly the
records of the articles whose title does not contain the exclusion
marker `"[原創]"` (skipped articles contribute no lines and are not
counted), in order, one line per record, and returns the pair (number of
non-skipped articles, number of emitted lines). -/
theorem convert_to_jsonl_spec (doc : InputDoc) (source : List Char)
    (out : List Record × Nat × Nat) (h : convert_to_jsonl doc source = some out) :
    ∃ rss, seqRecords source (keptArticles doc.articles) = some rss ∧
      out.1 = rss.flatten ∧ out.2.1 = (keptArticles doc.articles).length ∧
      out.2.2 = rss.flatten.length :=
  convertLoop_spec source doc.articles out h

/-- Witness for C6: a document with one marker article (skipped) and one
plain article; the driver returns one emitted record and counts (1, 1). -/
theorem convert_to_jsonl_spec_witness :
    (seqRecords pttSource (keptArticles sampleDoc.articles)).isSome = true := by
  obtain ⟨rss, hseq, _⟩ :=
    convert_to_jsonl_spec sampleDoc pttSource ([emptyRecord], 1, 1) (by decide)
  rw [hseq]
  rfl

/-- Claim C7: `normalize_datetime` maps falsy input to the empty string;
a non-empty string is tried against the fixed format list in order (the
first success, rendered ISO-8601, wins — shown for the first and the
last format) and is returned unchanged when no format matches; in
particular `"2024/01/05 10:30"` maps to `"2024-01-05T10:30:00"` and
`"昨天"` is returned unchanged.  The last two conjuncts exercise the
space-padded-day alternative of `%d` and Unicode digits under `%Y`'s
`\d`, which the formats do accept. -/
theorem normalize_datetime_spec :
    normalize_datetime none = [] ∧
    normalize_datetime (some []) = [] ∧
    (∀ s r, s ≠ [] → fmtSlashHM s = some r → normalize_datetime (some s) = r) ∧
    (∀ s r, s ≠ [] → fmtSlashHM s = none → fmtDashHM s = none → fmtSlash s = none →
      fmtDash s = none → fmtCtime s = some r → normalize_datetime (some s) = r) ∧
    (∀ s, s ≠ [] → tryFormats s = none → normalize_datetime (some s) = s) ∧
    normalize_datetime (some ("2024/01/05 10:30").toList) = ("2024-01-05T10:30:00").toList ∧
    normalize_datetime (some ("昨天").toList) = ("昨天").toList ∧
    normalize_datetime (some ("2024/01/ 5").toList) = ("2024-01-05T00:00:00").toList ∧
    normalize_datetime (some ("２０２４/01/05").toList) = ("2024-01-05T00:00:00").toList := by
  refine ⟨rfl, rfl, ?_, ?_, ?_, by decide, by decide, by decide, by decide⟩
  · intro s r hs hf
    simp [normalize_datetime, if_neg hs, tryFormats, firstSome, hf]
  · intro s r hs h1 h2 h3 h4 h5
    simp [normalize_datetime, if_neg hs, tryFormats, firstSome, h1, h2, h3, h4, h5]
  · intro s hs hnone
    simp [normalize_datetime, if_neg hs, hnone]

/-- Witness for C7: the first format applied to a concrete date. -/
theorem normalize_datetime_spec_witness :
    normalize_datetime (some ("1999/12/31 23:59").toList) = ("1999-12-31T23:59:00").toList :=
  normalize_datetime_spec.2.2.1 ("1999/12/31 23:59").toList
    ("1999-12-31T23:59:00").toList (by decide) (by decide)

/-- Helper: the tag scan finds nothing in a title without `[`. -/
theorem tagScan_no_bracket : ∀ (fuel : Nat) (s : List Char), '[' ∉ s → tagScan fuel s = [] := by
  intro fuel
  induction fuel with
  | zero => intro s _; rfl
  | succ fuel ih =>
    intro s h
    cases s with
    | nil => rfl
    | cons c rest =>
      rw [List.mem_cons] at h
      push_neg at h
      have hc : ¬ c = '[' := by
        intro hcc
        exact h.1 hcc.symm
      simp only [tagScan]
      rw [if_neg hc]
      exact ih rest h.2

/-- Claim C8 (amended): tag extraction returns the bracketed segments in
order of appearance with whitespace trimmed from each, dropping the
segments that are empty after trimming; a title with no brackets yields
the empty list, and the spec's examples hold. -/
theorem extract_title_tags_spec :
    (∀ title : List Char, '[' ∉ title → extract_title_tags title = []) ∧
    extract_title_tags ("[情報] 測試").toList = [("情報").toList] ∧
    extract_title_tags ("[情報][閒聊] X").toList = [("情報").toList, ("閒聊").toList] ∧
    extract_title_tags ("無標籤").toList = [] ∧
    extract_title_tags ("[ ] X").toList = [] := by
  refine ⟨?_, by decide, by decide, by decide, by decide⟩
  intro title h
  by_cases ht : title = []
  · rw [ht]
    rfl
  · unfold extract_title_tags
    rw [if_neg ht, tagScan_no_bracket title.length title h]
    rfl

/-- Witness for C8 at a concrete bracket-free title. -/
theorem extract_title_tags_spec_witness :
    extract_title_tags ("無標籤啊").toList = [] :=
  extract_title_tags_spec.1 ("無標籤啊").toList (by decide)

/-- Counterexample for claim C8 as stated: the title `"[ ]"` has one
bracketed segment `" "`, whose trimmed form is the empty string, so the
claimed "ordered list of the trimmed segments" would be `[""]`; the code
filters such segments out (`if t.strip()`) and returns `[]`. -/
theorem extract_title_tags_counterexample :
    extract_title_tags ("[ ]").toList = [] ∧
    pyStrip (" ").toList = [] ∧
    ([] : List (List Char)) ≠ [[]] := ⟨by decide, by decide, by decide⟩

example : simple_chunk_text ("abcdef").toList 2 0 = some [("ab").toList, ("cd").toList, ("ef").toList] := by decide

example : simple_chunk_text ("abcde").toList 3 1 = some [("abc").toList, ("cde").toList] := by decide

example : simple_chunk_text ("  hi  ").toList 10 2 = some [("hi").toList] := by decide

example : simple_chunk_text ("abc").toList 0 2 = some [("abc").toList] := by decide

example : simple_chunk_text ("ab").toList 1 200 = none := by decide
